import Mathlib

/-!
# Verification of the BPCells packed sparse-matrix codec and `RenameDims`

This file gives a shallow embedding, in Lean 4, of the components of
`src/matrixIterators/PackedMatrix.h`:

* `RenameDims` (the dimension-renaming `MatrixLoader` wrapper) is fully
  implemented in the header, so its embedding below is translated directly
  from that source.
* `PackedMatrix` (reader), `PackedMatrixWriter` (writer) and the bit-pack
  codec are only *declared* in the header; their method bodies live in
  translation units not present in the repository snapshot.  Those parts are
  therefore modelled from the specification (marked `Modelled from the
  spec:` in their doc comments): seven parallel streams, per-block
  frame-of-reference bit packing with minimal width, a column-streaming
  reader state machine with cross-call buffering, and a writer that polls a
  cancellation check once per column.

Machine integers (`uint32_t`) are modelled as `Nat`: the codec performs no
arithmetic that can overflow (row deltas are non-negative because the
baseline is the block minimum; value deltas use baseline 0), so `Nat` is a
faithful model of the uint32 range the format stores.
-/

namespace BPCells

set_option autoImplicit false

set_option maxRecDepth 8000

/-! ## Bit-level packing primitives

Modelled from the spec: the bit-pack codec stores each value of a block as a
fixed-width field of `w` bits ("emits each `v - baseline` as a fixed-width
field").  A packed payload is modelled as the list of its bits,
least-significant bit of each field first; a width-0 field contributes no
bits ("a block with all-equal values packs to width 0 (payload has zero
length)"). -/

/-- The `w` low bits of `v`, least-significant first. -/
def natToBits : Nat → Nat → List Bool
  | 0, _ => []
  | w + 1, v => (v % 2 = 1) :: natToBits w (v / 2)

/-- Read back a natural number from bits, least-significant first. -/
def bitsToNat : List Bool → Nat
  | [] => 0
  | b :: bs => (if b then 1 else 0) + 2 * bitsToNat bs

/-- Pack a list of field values, each into `w` bits, concatenated. -/
def packFields (w : Nat) (vs : List Nat) : List Bool :=
  (vs.map (natToBits w)).flatten

/-- Unpack `n` fields of `w` bits each from the front of a bit stream. -/
def unpackFields (w : Nat) : Nat → List Bool → List Nat
  | 0, _ => []
  | n + 1, bits => bitsToNat (bits.take w) :: unpackFields w n (bits.drop w)

/-! ## Blocks of 128 entries

Modelled from the spec: "a contiguous run of up to 128 entries within one
column"; "a block's size is exactly 128 except possibly the last block of a
column, which may be shorter".  A column's entry list is chunked into runs
of 128 with a shorter final run. -/

/-- Split a list into chunks of 128, the last chunk possibly shorter.
No chunk is empty. -/
def chunks128 {α : Type} (l : List α) : List (List α) :=
  (List.range ((l.length + 127) / 128)).map (fun i => (l.drop (128 * i)).take 128)

/-! ## Per-block metadata

Modelled from the spec: `pack` "computes the minimal bit width `w` such that
`max(v - baseline) < 2^w` for all `v` in the group (choosing `baseline` as
either 0 or the group minimum, depending on stream role — row-index blocks
use a meaningful baseline to exploit locality; value blocks may use
baseline 0)". -/

/-- Minimum of a list of naturals (0 on the empty list; blocks are never
empty). -/
def listMin : List Nat → Nat
  | [] => 0
  | [x] => x
  | x :: y :: xs => min x (listMin (y :: xs))

/-- Fuel-indexed binary length: `bitLenAux fuel n` is the number of binary
digits of `n` whenever `n ≤ fuel`. -/
def bitLenAux : Nat → Nat → Nat
  | 0, _ => 0
  | fuel + 1, n => if n = 0 then 0 else bitLenAux fuel (n / 2) + 1

/-- The number of binary digits of `n` (0 for `n = 0`): the minimal `w` with
`n < 2 ^ w`. -/
def bitLen (n : Nat) : Nat := bitLenAux n n

/-- The minimal number of bits needed for every element of `l`: the maximum
of the elements' binary lengths. -/
def widthFor (l : List Nat) : Nat :=
  l.foldr (fun v w => max (bitLen v) w) 0

/-! ## The seven streams and the writer

Modelled from the spec (§6): seven parallel streams — `col_ptr` (n_cols+1
entries: starting block offset per column), `row_count` (n_cols entries:
entry count per column), `row_starts` (per block: row baseline), `row_idx`
(per block: row bit width), `row_data` (bit-packed row deltas), `val_idx`
(per block: value bit width), `val_data` (bit-packed value deltas).
Bit-packed streams are modelled at bit granularity (`List Bool`); the
metadata streams at integer granularity. -/

structure PackedStreams where
  val_data : List Bool
  val_idx : List Nat
  row_data : List Bool
  row_starts : List Nat
  row_idx : List Nat
  col_ptr : List Nat
  row_count : List Nat

/-- A sparse matrix as presented by a column-major iterator: per column, the
list of (row index, value) pairs in iteration order. -/
abbrev SparseMat : Type := List (List (Nat × Nat))

/-- Row indices of a block. -/
def blockRows (c : List (Nat × Nat)) : List Nat := c.map Prod.fst

/-- Values of a block. -/
def blockVals (c : List (Nat × Nat)) : List Nat := c.map Prod.snd

/-- Frame-of-reference baseline of a block: the minimum row index. -/
def blockBase (c : List (Nat × Nat)) : Nat := listMin (blockRows c)

/-- Bit width of a block's row-index deltas: minimal width fitting every
`row - baseline`. -/
def blockRowWidth (c : List (Nat × Nat)) : Nat :=
  widthFor ((blockRows c).map (fun r => r - blockBase c))

/-- Bit width of a block's values (baseline 0). -/
def blockValWidth (c : List (Nat × Nat)) : Nat := widthFor (blockVals c)

/-- Packed payload of a block's row deltas: the block padded to 128 slots
with the baseline (delta 0), each delta emitted as a fixed-width field. -/
def blockRowBits (c : List (Nat × Nat)) : List Bool :=
  packFields (blockRowWidth c)
    (((blockRows c) ++ List.replicate (128 - c.length) (blockBase c)).map
      (fun r => r - blockBase c))

/-- Packed payload of a block's values, padded to 128 slots with 0. -/
def blockValBits (c : List (Nat × Nat)) : List Bool :=
  packFields (blockValWidth c) ((blockVals c) ++ List.replicate (128 - c.length) 0)

/-- All blocks of the matrix, grouped per column and concatenated in column
order. -/
def allBlocks (M : SparseMat) : List (List (Nat × Nat)) :=
  (M.map chunks128).flatten

/-- Block offset of column `c`: the number of blocks of all earlier
columns. -/
def colPtrAt (M : SparseMat) (c : Nat) : Nat :=
  ((M.take c).map (fun col => (chunks128 col).length)).sum

/-- Modelled from the spec: the writer's encoding of a full matrix into the
seven streams, "grouping each column's entries into 128-element blocks,
computing per-block baseline and bit width via the codec, and appending
block metadata and payload in column order"; `row_count[c]` is the entry
count of column `c` and `col_ptr` the cumulative block layout. -/
def encodePacked (M : SparseMat) : PackedStreams where
  val_data := ((allBlocks M).map blockValBits).flatten
  val_idx := (allBlocks M).map blockValWidth
  row_data := ((allBlocks M).map blockRowBits).flatten
  row_starts := (allBlocks M).map blockBase
  row_idx := (allBlocks M).map blockRowWidth
  col_ptr := (List.range (M.length + 1)).map (colPtrAt M)
  row_count := M.map List.length

/-- Poll the interrupt-check once per column, starting at column `i`;
`true` means no cancellation was signalled. -/
def pollCols (interrupt : Nat → Bool) : Nat → Nat → Bool
  | _, 0 => true
  | i, n + 1 => if interrupt i then false else pollCols interrupt (i + 1) n

/-- Modelled from the spec: `PackedMatrixWriter::write` "drives the source
through restart → nextCol → load to end, encoding as it goes"; "the optional
interrupt-check callback is polled periodically (e.g. once per column)";
"if it signals cancellation, the write aborts and returns failure".
`none` is the failure return (`false` in C++); on success the seven encoded
streams are produced. -/
def write (M : SparseMat) (checkInterrupt : Nat → Bool) : Option PackedStreams :=
  if pollCols checkInterrupt 0 M.length then some (encodePacked M) else none

/-! ## The packed matrix reader

Modelled from the spec (§4.2): reader state is `current_col` (UINT32_MAX,
i.e. "before first", modelled as `none`), `current_idx` (entries consumed so
far within the current column), and an internal decode buffer carrying
decoded-but-undelivered entries of a partially consumed block across `load`
calls (the C++ `val_buf`/`row_buf` plus `prev_val_idx`/`prev_row_idx`
bookkeeping).  Stream cursors are a function of how many blocks have been
decoded, so they are derived rather than stored. -/

structure RState where
  current_col : Option Nat
  current_idx : Nat
  buf : List (Nat × Nat)
deriving DecidableEq

/-- Bit offset of block `b` inside `row_data`: all previous blocks hold 128
fields of their own width. -/
def rowBitPos (s : PackedStreams) (b : Nat) : Nat :=
  128 * (s.row_idx.take b).sum

/-- Bit offset of block `b` inside `val_data`. -/
def valBitPos (s : PackedStreams) (b : Nat) : Nat :=
  128 * (s.val_idx.take b).sum

/-- Modelled from the spec: `load128`, the block decode step.  Reads block
`b`'s bit widths and row baseline from the metadata streams and unpacks 128
row/value fields; reconstructs each row as `baseline + field`.  Fails
(`none`) when the metadata streams or the packed payloads are too short for
the declared block. -/
def load128 (s : PackedStreams) (b : Nat) : Option (List (Nat × Nat)) :=
  match s.row_idx.get? b, s.row_starts.get? b, s.val_idx.get? b with
  | some rw, some base, some vw =>
      if s.row_data.length < rowBitPos s b + 128 * rw then none
      else if s.val_data.length < valBitPos s b + 128 * vw then none
      else
        some (((unpackFields rw 128 (s.row_data.drop (rowBitPos s b))).map
            (fun r => base + r)).zip
          (unpackFields vw 128 (s.val_data.drop (valBitPos s b))))
  | _, _, _ => none

/-- Decode `k` consecutive blocks starting at block `b`, concatenated. -/
def loadBlocks (s : PackedStreams) : Nat → Nat → Option (List (Nat × Nat))
  | _, 0 => some []
  | b, k + 1 => do
      let e ← load128 s b
      let rest ← loadBlocks s (b + 1) k
      pure (e ++ rest)

/-- Modelled from the spec: `PackedMatrix::load`.  Returns the number of
entries delivered together with the delivered (row, value) pairs and the
successor state; `0` repeatedly once the current column is exhausted, `-1`
on a decode error (stream lengths/contents inconsistent with the declared
block metadata) or when called before any `nextCol`.  Decodes internally in
128-entry blocks, serving from the carry-over buffer first and caching any
undelivered decoded entries. -/
def load (s : PackedStreams) (st : RState) (count : Nat) :
    Int × List (Nat × Nat) × RState :=
  match st.current_col with
  | none => (-1, [], st)
  | some c =>
    match s.row_count.get? c, s.col_ptr.get? c with
    | some total, some p0 =>
      if total ≤ st.current_idx then (0, [], st)
      else
        let want := min count (total - st.current_idx)
        if want ≤ st.buf.length then
          ((want : Int), st.buf.take want,
            { st with current_idx := st.current_idx + want, buf := st.buf.drop want })
        else
          let dec := st.current_idx + st.buf.length
          let kHave := (dec + 127) / 128
          let kNeed := (st.current_idx + want + 127) / 128
          match loadBlocks s (p0 + kHave) (kNeed - kHave) with
          | none => (-1, [], st)
          | some newEntries =>
            let avail := st.buf ++ newEntries.take (min total (128 * kNeed) - dec)
            ((want : Int), avail.take want,
              { st with current_idx := st.current_idx + want, buf := avail.drop want })
    | _, _ => (-1, [], st)

/-- Modelled from the spec: `PackedMatrix::nextCol` advances to the next
column, returning `false` once past the last column; it resets the
per-column decode state (`current_idx`, in-column buffering) so a fresh
`load` sequence starts cleanly. -/
def nextCol (s : PackedStreams) (st : RState) : Bool × RState :=
  let c := match st.current_col with
    | none => 0
    | some c => c + 1
  if c < s.row_count.length then
    (true, { current_col := some c, current_idx := 0, buf := [] })
  else
    (false, { st with current_col := some c })

/-- The state of a freshly constructed reader: positioned before the first
column. -/
def initState : RState :=
  { current_col := none, current_idx := 0, buf := [] }

/-- Modelled from the spec: `PackedMatrix::restart` resets `current_col` to
"before first" and rewinds all seven underlying streams to their start (in
this embedding the stream cursors are derived from the state, so rewinding
is resetting the whole mutable state). -/
def restart (_ : RState) : RState := initState

/-- Drive `load` (with a fixed request size `q` per call) to the end of the
current column, collecting everything delivered, until `load` returns 0;
`none` on a decode error or fuel exhaustion. -/
def loadLoop (s : PackedStreams) (q : Nat) : Nat → RState → Option (List (Nat × Nat) × RState)
  | 0, _ => none
  | fuel + 1, st =>
    match load s st q with
    | (n, es, st') =>
      if n < 0 then none
      else if n = 0 then some ([], st')
      else do
        let (rest, st'') ← loadLoop s q fuel st'
        pure (es ++ rest, st'')

/-- Load the current column to exhaustion in chunk requests of 128. -/
def loadColumn (s : PackedStreams) : Nat → RState → Option (List (Nat × Nat) × RState) :=
  loadLoop s 128

/-- A full traversal from a given state: `nextCol` until it returns false,
loading each column to exhaustion. -/
def traverseFrom (s : PackedStreams) : Nat → RState → Option (List (List (Nat × Nat)))
  | 0, _ => none
  | fuel + 1, st =>
    match nextCol s st with
    | (false, _) => some []
    | (true, st') => do
        let (col, st'') ← loadColumn s (s.row_count.sum + 1) st'
        let rest ← traverseFrom s fuel st''
        pure (col :: rest)

/-- A full traversal of a freshly constructed (or restarted) reader. -/
def traverse (s : PackedStreams) : Option (List (List (Nat × Nat))) :=
  traverseFrom s (s.row_count.length + 1) initState

/-- Issue a sequence of `load` calls with the given request sizes, recording
each call's return code and delivered entries. -/
def loadRepeat (s : PackedStreams) : RState → List Nat → List (Int × List (Nat × Nat)) × RState
  | st, [] => ([], st)
  | st, n :: ns =>
    match load s st n with
    | (r, es, st') =>
      match loadRepeat s st' ns with
      | (rest, stEnd) => ((r, es) :: rest, stEnd)

/-- Column `c` of a source matrix (`[]` out of range). -/
def colData (M : SparseMat) (c : Nat) : List (Nat × Nat) := M.getD c []

/-- A block padded to its 128 decoded slots: the real entries followed by
padding entries (baseline row, value 0). -/
def paddedBlock (c : List (Nat × Nat)) : List (Nat × Nat) :=
  c ++ List.replicate (128 - c.length) (blockBase c, 0)

/-- The full decoded form of one column: its blocks, each padded to 128
slots. -/
def paddedCol (col : List (Nat × Nat)) : List (Nat × Nat) :=
  ((chunks128 col).map paddedBlock).flatten

/-- The reachable-state invariant of a reader positioned on column `c` of an
encoded matrix: the consumed-plus-buffered frontier sits at a block boundary
or at the column end, and the carry-over buffer holds exactly the decoded
but undelivered segment of the column. -/
def Inv (M : SparseMat) (c : Nat) (st : RState) : Prop :=
  st.current_col = some c ∧ c < M.length ∧
  st.current_idx + st.buf.length =
    min (colData M c).length
      (128 * ((st.current_idx + st.buf.length + 127) / 128)) ∧
  st.buf = ((colData M c).drop st.current_idx).take st.buf.length

/-! ## `RenameDims`

Translated directly from the source (`RenameDims` in
`src/matrixIterators/PackedMatrix.h`): a wrapper around a `MatrixLoader`
that renames, preserves or clears row/column names.  The wrapped loader is
modelled by its dimensions and its name lookups; `const char *` results are
modelled as `Option String` with `none` for `NULL`. -/

structure RenameDims where
  loaderRows : Nat
  loaderCols : Nat
  loaderRowNames : Nat → Option String
  loaderColNames : Nat → Option String
  row_names : List String
  col_names : List String
  clear_row_names : Bool
  clear_col_names : Bool

/-- The `RenameDims` constructor: performs the four validation checks in
source order, throwing (`Except.error`) on the first failure, and otherwise
constructs the wrapper. -/
def mkRenameDims (loaderRows loaderCols : Nat)
    (loaderRowNames loaderColNames : Nat → Option String)
    (row_names col_names : List String)
    (clear_row_names clear_col_names : Bool) : Except String RenameDims :=
  if 0 < row_names.length ∧ row_names.length ≠ loaderRows then
    Except.error "RenameDims: Row names must be length 0 or equal to number of input rows"
  else if 0 < col_names.length ∧ col_names.length ≠ loaderCols then
    Except.error "RenameDims: Cow names must be length 0 or equal to number of input cols"
  else if clear_row_names = true ∧ row_names.length ≠ 0 then
    Except.error "RenameDims: if clear_row_names is true, row names must be length 0"
  else if clear_col_names = true ∧ col_names.length ≠ 0 then
    Except.error "RenameDims: if clear_col_names is true, col names must be length 0"
  else
    Except.ok
      { loaderRows := loaderRows
        loaderCols := loaderCols
        loaderRowNames := loaderRowNames
        loaderColNames := loaderColNames
        row_names := row_names
        col_names := col_names
        clear_row_names := clear_row_names
        clear_col_names := clear_col_names }

/-- `RenameDims::colNames`, translated line by line from the source. -/
def RenameDims.colNames (r : RenameDims) (col : Nat) : Option String :=
  if r.clear_col_names then none
  else if r.col_names.length = 0 then r.loaderColNames col
  else if h : col < r.col_names.length then some (r.col_names.get ⟨col, h⟩)
  else none

/-- `RenameDims::rowNames`, translated line by line from the source. -/
def RenameDims.rowNames (r : RenameDims) (row : Nat) : Option String :=
  if r.clear_row_names then none
  else if r.row_names.length = 0 then r.loaderRowNames row
  else if h : row < r.row_names.length then some (r.row_names.get ⟨row, h⟩)
  else none

/-! ## Lemmas and theorems -/

@[simp] theorem natToBits_length (w v : Nat) : (natToBits w v).length = w := by
  induction w generalizing v with
  | zero => rfl
  | succ w ih => simp [natToBits, ih]

theorem bitsToNat_natToBits {w v : Nat} (h : v < 2 ^ w) :
    bitsToNat (natToBits w v) = v := by
  induction w generalizing v with
  | zero =>
      interval_cases v
      rfl
  | succ w ih =>
      have hv2 : v / 2 < 2 ^ w := by
        have : 2 ^ (w + 1) = 2 ^ w * 2 := by ring
        omega
      simp only [natToBits, bitsToNat, ih hv2]
      have := Nat.mod_two_eq_zero_or_one v
      rcases this with h0 | h1
      · simp [h0]
        omega
      · simp [h1]
        omega

@[simp] theorem packFields_nil (w : Nat) : packFields w [] = [] := rfl

theorem packFields_cons (w v : Nat) (vs : List Nat) :
    packFields w (v :: vs) = natToBits w v ++ packFields w vs := by
  simp [packFields]

@[simp] theorem packFields_length (w : Nat) (vs : List Nat) :
    (packFields w vs).length = w * vs.length := by
  induction vs with
  | nil => simp
  | cons v vs ih =>
      simp [packFields_cons, ih]
      ring

theorem unpackFields_packFields_append {w : Nat} {vs : List Nat}
    (hb : ∀ v ∈ vs, v < 2 ^ w) (rest : List Bool) :
    unpackFields w vs.length (packFields w vs ++ rest) = vs := by
  induction vs with
  | nil => rfl
  | cons v vs ih =>
      have hv : v < 2 ^ w := hb v (List.mem_cons_self v vs)
      have hlen : (natToBits w v).length = w := natToBits_length w v
      simp only [List.length_cons, packFields_cons, List.append_assoc, unpackFields]
      have h1 : List.take w (natToBits w v ++ (packFields w vs ++ rest)) = natToBits w v := by
        rw [List.take_append_of_le_length (by omega), List.take_of_length_le (by omega)]
      have h2 : List.drop w (natToBits w v ++ (packFields w vs ++ rest)) =
          packFields w vs ++ rest := by
        rw [List.drop_append_of_le_length (by omega), List.drop_of_length_le (by omega),
          List.nil_append]
      rw [h1, h2, bitsToNat_natToBits hv,
        ih (fun x hx => hb x (List.mem_cons_of_mem v hx))]

theorem unpackFields_packFields_of_length {w n : Nat} {vs : List Nat}
    (hn : vs.length = n) (hb : ∀ v ∈ vs, v < 2 ^ w) (rest : List Bool) :
    unpackFields w n (packFields w vs ++ rest) = vs := by
  subst hn
  exact unpackFields_packFields_append hb rest

@[simp] theorem chunks128_nil {α : Type} : chunks128 ([] : List α) = [] := by
  simp [chunks128]

@[simp] theorem chunks128_length {α : Type} (l : List α) :
    (chunks128 l).length = (l.length + 127) / 128 := by
  simp [chunks128]

theorem chunks128_cons {α : Type} {l : List α} (h : l ≠ []) :
    chunks128 l = l.take 128 :: chunks128 (l.drop 128) := by
  have hlen : l.length ≠ 0 := fun hl => h (List.eq_nil_of_length_eq_zero hl)
  have hn : (l.length + 127) / 128 = ((l.drop 128).length + 127) / 128 + 1 := by
    simp only [List.length_drop]
    omega
  unfold chunks128
  rw [hn, List.range_succ_eq_map, List.map_cons, List.map_map]
  refine congrArg₂ List.cons (by simp) ?_
  apply List.map_congr_left
  intro i _
  simp only [Function.comp_apply, List.drop_drop]
  congr 2
  omega

theorem chunks128_flatten {α : Type} (l : List α) : (chunks128 l).flatten = l := by
  by_cases h : l = []
  · simp [h]
  · rw [chunks128_cons h]
    have : (l.drop 128).length < l.length := by
      have : l.length ≠ 0 := fun hl => h (List.eq_nil_of_length_eq_zero hl)
      simp only [List.length_drop]
      omega
    rw [List.flatten_cons, chunks128_flatten (l.drop 128), List.take_append_drop]
termination_by l.length

theorem chunks128_mem_ne_nil {α : Type} {l : List α} {c : List α}
    (hc : c ∈ chunks128 l) : c ≠ [] ∧ c.length ≤ 128 := by
  by_cases h : l = []
  · rw [h] at hc
    simp at hc
  · rw [chunks128_cons h] at hc
    rcases List.mem_cons.mp hc with h1 | h2
    · subst h1
      refine ⟨?_, by simp⟩
      have : l.length ≠ 0 := fun hl => h (List.eq_nil_of_length_eq_zero hl)
      intro htake
      have := congrArg List.length htake
      simp only [List.length_take, List.length_nil] at this
      omega
    · have : (l.drop 128).length < l.length := by
        have : l.length ≠ 0 := fun hl => h (List.eq_nil_of_length_eq_zero hl)
        simp only [List.length_drop]
        omega
      exact chunks128_mem_ne_nil h2
termination_by l.length

theorem listMin_le {l : List Nat} {x : Nat} (hx : x ∈ l) : listMin l ≤ x := by
  match l with
  | [] => cases hx
  | [y] =>
      rcases List.mem_singleton.mp hx with rfl
      exact le_refl _
  | y :: z :: xs =>
      rcases List.mem_cons.mp hx with rfl | hmem
      · exact le_trans (min_le_left _ _) (le_refl _)
      · exact le_trans (min_le_right _ _) (listMin_le hmem)

theorem listMin_mem : ∀ (l : List Nat), l ≠ [] → listMin l ∈ l
  | [], h => absurd rfl h
  | [x], _ => by simp [listMin]
  | x :: y :: xs, _ => by
      rcases le_total x (listMin (y :: xs)) with hle | hge
      · simp [listMin, min_eq_left hle]
      · have := listMin_mem (y :: xs) (by simp)
        rw [listMin, min_eq_right hge]
        exact List.mem_cons_of_mem x this

@[simp] theorem bitLenAux_zero (fuel : Nat) : bitLenAux fuel 0 = 0 := by
  cases fuel <;> rfl

theorem bitLenAux_congr (f1 f2 n : Nat) (h1 : n ≤ f1) (h2 : n ≤ f2) :
    bitLenAux f1 n = bitLenAux f2 n := by
  induction f1 generalizing f2 n with
  | zero =>
      have : n = 0 := by omega
      subst this
      simp
  | succ f1 ih =>
      by_cases hn : n = 0
      · subst hn
        simp
      · match f2 with
        | 0 => omega
        | g + 1 =>
            simp only [bitLenAux, hn, if_false]
            rw [ih g (n / 2) (by omega) (by omega)]

theorem bitLen_eq {n : Nat} (h : n ≠ 0) : bitLen n = bitLen (n / 2) + 1 := by
  match n with
  | m + 1 =>
      show bitLenAux (m + 1) (m + 1) = bitLenAux ((m + 1) / 2) ((m + 1) / 2) + 1
      simp only [bitLenAux, Nat.succ_ne_zero, if_false]
      rw [bitLenAux_congr m ((m + 1) / 2) ((m + 1) / 2) (by omega) (by omega)]

theorem lt_two_pow_bitLen (n : Nat) : n < 2 ^ bitLen n := by
  induction n using Nat.strong_induction_on with
  | _ n ih =>
      by_cases h : n = 0
      · subst h
        exact Nat.zero_lt_one
      · rw [bitLen_eq h, pow_succ]
        have := ih (n / 2) (by omega)
        omega

theorem bitLen_le_of_lt {n : Nat} : ∀ {w : Nat}, n < 2 ^ w → bitLen n ≤ w := by
  induction n using Nat.strong_induction_on with
  | _ n ih =>
      intro w hw
      by_cases h : n = 0
      · subst h
        simp [bitLen]
      · match w with
        | 0 =>
            simp only [pow_zero] at hw
            omega
        | w + 1 =>
            rw [bitLen_eq h, Nat.add_le_add_iff_right]
            apply ih (n / 2) (by omega)
            rw [pow_succ] at hw
            omega

theorem bitLen_le_widthFor {l : List Nat} {x : Nat} (hx : x ∈ l) :
    bitLen x ≤ widthFor l := by
  induction l with
  | nil => cases hx
  | cons y ys ih =>
      rcases List.mem_cons.mp hx with rfl | hmem
      · exact le_max_left _ _
      · exact le_trans (ih hmem) (le_max_right _ _)

theorem lt_two_pow_widthFor {l : List Nat} {x : Nat} (hx : x ∈ l) :
    x < 2 ^ widthFor l :=
  lt_of_lt_of_le (lt_two_pow_bitLen x)
    (Nat.pow_le_pow_right (by norm_num) (bitLen_le_widthFor hx))

theorem widthFor_min {l : List Nat} {w : Nat} (h : ∀ x ∈ l, x < 2 ^ w) :
    widthFor l ≤ w := by
  induction l with
  | nil => exact Nat.zero_le w
  | cons y ys ih =>
      refine max_le ?_ (ih fun x hx => h x (List.mem_cons_of_mem y hx))
      exact bitLen_le_of_lt (h y (List.mem_cons_self y ys))

theorem pollCols_iff (interrupt : Nat → Bool) (i n : Nat) :
    pollCols interrupt i n = true ↔ ∀ j, j < n → interrupt (i + j) = false := by
  induction n generalizing i with
  | zero => simp [pollCols]
  | succ n ih =>
      cases hi : interrupt i with
      | true =>
          simp only [pollCols, hi, if_true]
          constructor
          · intro h
            cases h
          · intro h
            have h0 := h 0 (Nat.succ_pos n)
            rw [Nat.add_zero, hi] at h0
            cases h0
      | false =>
          simp only [pollCols, hi, Bool.false_eq_true, if_false, ih]
          constructor
          · intro h j hj
            match j with
            | 0 =>
                rw [Nat.add_zero]
                exact hi
            | j + 1 =>
                have he : i + (j + 1) = i + 1 + j := by omega
                rw [he]
                exact h j (by omega)
          · intro h j hj
            have he : i + 1 + j = i + (j + 1) := by omega
            rw [he]
            exact h (j + 1) (by omega)

/-! ## Stream-lookup helpers -/

theorem getD_mem_of_lt {α : Type} {l : List α} {b : Nat} (d : α) (hb : b < l.length) :
    l.getD b d ∈ l := by
  rw [List.getD_eq_get?, List.get?_eq_get hb]
  exact List.get_mem l b hb

theorem get?_map_getD {α β : Type} (l : List α) (f : α → β) (d : α) (b : Nat)
    (hb : b < l.length) : (l.map f).get? b = some (f (l.getD b d)) := by
  rw [List.get?_map, List.get?_eq_get hb, List.getD_eq_get?, List.get?_eq_get hb]
  rfl

theorem allBlocks_block_bounds {M : SparseMat} {cb : List (Nat × Nat)}
    (h : cb ∈ allBlocks M) : cb ≠ [] ∧ cb.length ≤ 128 := by
  unfold allBlocks at h
  rcases List.mem_flatten.mp h with ⟨bl, hbl, hcb⟩
  rcases List.mem_map.mp hbl with ⟨col, _, rfl⟩
  exact chunks128_mem_ne_nil hcb

@[simp] theorem unpackFields_length (w n : Nat) (bits : List Bool) :
    (unpackFields w n bits).length = n := by
  induction n generalizing bits with
  | zero => rfl
  | succ n ih => simp [unpackFields, ih]

theorem flatten_drop_sum {α : Type} (L : List (List α)) (b : Nat) :
    L.flatten.drop (((L.take b).map List.length).sum) = (L.drop b).flatten := by
  induction b generalizing L with
  | zero => simp
  | succ b ih =>
      match L with
      | [] => simp
      | x :: xs =>
          simp only [List.take_succ_cons, List.map_cons, List.sum_cons,
            List.flatten_cons, List.drop_succ_cons]
          rw [List.drop_append]
          exact ih xs

theorem flatten_take_const {α : Type} {n : Nat} :
    ∀ (L : List (List α)), (∀ x ∈ L, x.length = n) →
      ∀ (a : Nat), (L.take a).flatten = L.flatten.take (n * a)
  | _, _, 0 => by simp
  | [], _, a + 1 => by simp
  | x :: xs, h, a + 1 => by
      have hx : x.length = n := h x (List.mem_cons_self x xs)
      simp only [List.take_succ_cons, List.flatten_cons, Nat.mul_succ]
      rw [List.take_append_eq_append_take]
      have h1 : List.take (n * a + n) x = x := List.take_of_length_le (by omega)
      have h2 : n * a + n - x.length = n * a := by omega
      rw [h1, h2, flatten_take_const xs (fun y hy => h y (List.mem_cons_of_mem x hy)) a]

theorem flatten_drop_const {α : Type} {n : Nat} :
    ∀ (L : List (List α)), (∀ x ∈ L, x.length = n) →
      ∀ (a : Nat), (L.drop a).flatten = L.flatten.drop (n * a)
  | _, _, 0 => by simp
  | [], _, a + 1 => by simp
  | x :: xs, h, a + 1 => by
      have hx : x.length = n := h x (List.mem_cons_self x xs)
      simp only [List.drop_succ_cons, List.flatten_cons, Nat.mul_succ]
      rw [flatten_drop_const xs (fun y hy => h y (List.mem_cons_of_mem x hy)) a]
      have he : n * a + n = x.length + n * a := by omega
      rw [he, List.drop_append]

theorem encode_row_idx (M : SparseMat) :
    (encodePacked M).row_idx = (allBlocks M).map blockRowWidth := rfl

theorem encode_row_starts (M : SparseMat) :
    (encodePacked M).row_starts = (allBlocks M).map blockBase := rfl

theorem encode_val_idx (M : SparseMat) :
    (encodePacked M).val_idx = (allBlocks M).map blockValWidth := rfl

theorem encode_row_data (M : SparseMat) :
    (encodePacked M).row_data = ((allBlocks M).map blockRowBits).flatten := rfl

theorem encode_val_data (M : SparseMat) :
    (encodePacked M).val_data = ((allBlocks M).map blockValBits).flatten := rfl

theorem encode_col_ptr (M : SparseMat) :
    (encodePacked M).col_ptr = (List.range (M.length + 1)).map (colPtrAt M) := rfl

theorem encode_row_count (M : SparseMat) :
    (encodePacked M).row_count = M.map List.length := rfl

theorem sum_map_mul_left {α : Type} (l : List α) (f : α → Nat) (k : Nat) :
    (l.map (fun x => k * f x)).sum = k * (l.map f).sum := by
  induction l with
  | nil => simp
  | cons x xs ih =>
      simp only [List.map_cons, List.sum_cons, ih, Nat.mul_add]

theorem blockRowBits_length {c : List (Nat × Nat)} (hc : c.length ≤ 128) :
    (blockRowBits c).length = 128 * blockRowWidth c := by
  unfold blockRowBits
  rw [packFields_length, List.length_map, List.length_append, List.length_replicate]
  have : (blockRows c).length = c.length := List.length_map c Prod.fst
  rw [this]
  have h128 : c.length + (128 - c.length) = 128 := by omega
  rw [h128, Nat.mul_comm]

theorem blockValBits_length {c : List (Nat × Nat)} (hc : c.length ≤ 128) :
    (blockValBits c).length = 128 * blockValWidth c := by
  unfold blockValBits
  rw [packFields_length, List.length_append, List.length_replicate]
  have : (blockVals c).length = c.length := List.length_map c Prod.snd
  rw [this]
  have h128 : c.length + (128 - c.length) = 128 := by omega
  rw [h128, Nat.mul_comm]

theorem paddedBlock_length {c : List (Nat × Nat)} (hc : c.length ≤ 128) :
    (paddedBlock c).length = 128 := by
  unfold paddedBlock
  rw [List.length_append, List.length_replicate]
  omega

theorem rowBitPos_encode (M : SparseMat) (b : Nat) :
    rowBitPos (encodePacked M) b =
      ((((allBlocks M).map blockRowBits).take b).map List.length).sum := by
  unfold rowBitPos
  rw [encode_row_idx, ← List.map_take, ← List.map_take, List.map_map]
  have hcong : ((allBlocks M).take b).map (List.length ∘ blockRowBits)
      = ((allBlocks M).take b).map (fun c => 128 * blockRowWidth c) := by
    apply List.map_congr_left
    intro c hc
    have hmem : c ∈ allBlocks M := List.mem_of_mem_take hc
    simp only [Function.comp_apply]
    exact blockRowBits_length (allBlocks_block_bounds hmem).2
  rw [hcong, sum_map_mul_left]

theorem valBitPos_encode (M : SparseMat) (b : Nat) :
    valBitPos (encodePacked M) b =
      ((((allBlocks M).map blockValBits).take b).map List.length).sum := by
  unfold valBitPos
  rw [encode_val_idx, ← List.map_take, ← List.map_take, List.map_map]
  have hcong : ((allBlocks M).take b).map (List.length ∘ blockValBits)
      = ((allBlocks M).take b).map (fun c => 128 * blockValWidth c) := by
    apply List.map_congr_left
    intro c hc
    have hmem : c ∈ allBlocks M := List.mem_of_mem_take hc
    simp only [Function.comp_apply]
    exact blockValBits_length (allBlocks_block_bounds hmem).2
  rw [hcong, sum_map_mul_left]

theorem zip_replicate_same {α β : Type} (n : Nat) (a : α) (b : β) :
    (List.replicate n a).zip (List.replicate n b) = List.replicate n (a, b) := by
  induction n with
  | zero => rfl
  | succ n ih => simp [List.replicate_succ, ih]

theorem getD_eq_getElem {α : Type} {l : List α} {b : Nat} (d : α) (hb : b < l.length) :
    l.getD b d = l[b] := by
  rw [List.getD_eq_getElem?_getD, List.getElem?_eq_getElem hb]
  rfl

/-- Decoding block `b` of an encoded matrix recovers exactly that block's
entries padded to 128 slots. -/
theorem load128_encode (M : SparseMat) (b : Nat) (hb : b < (allBlocks M).length) :
    load128 (encodePacked M) b = some (paddedBlock ((allBlocks M).getD b [])) := by
  have hmem : (allBlocks M).getD b [] ∈ allBlocks M := getD_mem_of_lt [] hb
  obtain ⟨hne, hlen⟩ := allBlocks_block_bounds hmem
  set cb := (allBlocks M).getD b [] with hcbdef
  have h1 : (encodePacked M).row_idx.get? b = some (blockRowWidth cb) := by
    rw [encode_row_idx]
    exact get?_map_getD _ _ [] b hb
  have h2 : (encodePacked M).row_starts.get? b = some (blockBase cb) := by
    rw [encode_row_starts]
    exact get?_map_getD _ _ [] b hb
  have h3 : (encodePacked M).val_idx.get? b = some (blockValWidth cb) := by
    rw [encode_val_idx]
    exact get?_map_getD _ _ [] b hb
  have hbrow : b < ((allBlocks M).map blockRowBits).length := by
    rw [List.length_map]
    exact hb
  have hbval : b < ((allBlocks M).map blockValBits).length := by
    rw [List.length_map]
    exact hb
  have hrowdrop : (encodePacked M).row_data.drop (rowBitPos (encodePacked M) b)
      = blockRowBits cb ++ (((allBlocks M).map blockRowBits).drop (b + 1)).flatten := by
    rw [encode_row_data, rowBitPos_encode, flatten_drop_sum,
      List.drop_eq_getElem_cons hbrow, List.flatten_cons, List.getElem_map,
      ← getD_eq_getElem [] hb]
  have hvaldrop : (encodePacked M).val_data.drop (valBitPos (encodePacked M) b)
      = blockValBits cb ++ (((allBlocks M).map blockValBits).drop (b + 1)).flatten := by
    rw [encode_val_data, valBitPos_encode, flatten_drop_sum,
      List.drop_eq_getElem_cons hbval, List.flatten_cons, List.getElem_map,
      ← getD_eq_getElem [] hb]
  have hrow_pos_le : rowBitPos (encodePacked M) b ≤ (encodePacked M).row_data.length := by
    rw [rowBitPos_encode, encode_row_data, List.length_flatten]
    have hsplit := List.sum_take_add_sum_drop
      (((allBlocks M).map blockRowBits).map List.length) b
    rw [← List.map_take] at hsplit
    omega
  have hval_pos_le : valBitPos (encodePacked M) b ≤ (encodePacked M).val_data.length := by
    rw [valBitPos_encode, encode_val_data, List.length_flatten]
    have hsplit := List.sum_take_add_sum_drop
      (((allBlocks M).map blockValBits).map List.length) b
    rw [← List.map_take] at hsplit
    omega
  have hrowdroplen := congrArg List.length hrowdrop
  rw [List.length_drop, List.length_append, blockRowBits_length hlen] at hrowdroplen
  have hvaldroplen := congrArg List.length hvaldrop
  rw [List.length_drop, List.length_append, blockValBits_length hlen] at hvaldroplen
  have hrowlen : ¬ ((encodePacked M).row_data.length
      < rowBitPos (encodePacked M) b + 128 * blockRowWidth cb) := by omega
  have hvallen : ¬ ((encodePacked M).val_data.length
      < valBitPos (encodePacked M) b + 128 * blockValWidth cb) := by omega
  have hrowfull_len : ((blockRows cb)
      ++ List.replicate (128 - cb.length) (blockBase cb)).length = 128 := by
    rw [List.length_append, List.length_replicate, blockRows, List.length_map]
    omega
  have hrw_unpack : unpackFields (blockRowWidth cb) 128
      ((encodePacked M).row_data.drop (rowBitPos (encodePacked M) b))
      = ((blockRows cb) ++ List.replicate (128 - cb.length) (blockBase cb)).map
          (fun r => r - blockBase cb) := by
    rw [hrowdrop]
    show unpackFields (blockRowWidth cb) 128 (blockRowBits cb ++ _) = _
    unfold blockRowBits
    apply unpackFields_packFields_of_length (by rw [List.length_map, hrowfull_len])
    intro d hd
    rcases List.mem_map.mp hd with ⟨r, hr, rfl⟩
    rcases List.mem_append.mp hr with hr1 | hr2
    · exact lt_two_pow_widthFor (List.mem_map.mpr ⟨r, hr1, rfl⟩)
    · have hrb : r = blockBase cb := List.eq_of_mem_replicate hr2
      rw [hrb, Nat.sub_self]
      exact pow_pos (by norm_num) _
  have hvalfull_len : ((blockVals cb) ++ List.replicate (128 - cb.length) 0).length
      = 128 := by
    rw [List.length_append, List.length_replicate, blockVals, List.length_map]
    omega
  have hvv_unpack : unpackFields (blockValWidth cb) 128
      ((encodePacked M).val_data.drop (valBitPos (encodePacked M) b))
      = (blockVals cb) ++ List.replicate (128 - cb.length) 0 := by
    rw [hvaldrop]
    show unpackFields (blockValWidth cb) 128 (blockValBits cb ++ _) = _
    unfold blockValBits
    apply unpackFields_packFields_of_length hvalfull_len
    intro v hv
    rcases List.mem_append.mp hv with hv1 | hv2
    · exact lt_two_pow_widthFor hv1
    · have hv0 : v = 0 := List.eq_of_mem_replicate hv2
      rw [hv0]
      exact pow_pos (by norm_num) _
  have hrows_map : (unpackFields (blockRowWidth cb) 128
      ((encodePacked M).row_data.drop (rowBitPos (encodePacked M) b))).map
        (fun r => blockBase cb + r)
      = (blockRows cb) ++ List.replicate (128 - cb.length) (blockBase cb) := by
    rw [hrw_unpack, List.map_map]
    have hid : ∀ r ∈ (blockRows cb) ++ List.replicate (128 - cb.length) (blockBase cb),
        ((fun r => blockBase cb + r) ∘ fun r => r - blockBase cb) r = id r := by
      intro r hr
      rcases List.mem_append.mp hr with hr1 | hr2
      · have hle : listMin (blockRows cb) ≤ r := listMin_le hr1
        simp only [Function.comp_apply, id_eq, blockBase]
        omega
      · have hrb : r = blockBase cb := List.eq_of_mem_replicate hr2
        subst hrb
        simp only [Function.comp_apply, id_eq]
        omega
    rw [List.map_congr_left hid, List.map_id]
  have hzip : ((blockRows cb) ++ List.replicate (128 - cb.length) (blockBase cb)).zip
      ((blockVals cb) ++ List.replicate (128 - cb.length) 0) = paddedBlock cb := by
    rw [List.zip_append (by rw [blockRows, blockVals, List.length_map, List.length_map]),
      zip_replicate_same]
    unfold paddedBlock
    congr 1
    rw [blockRows, blockVals, List.zip_map']
    simp
  simp only [load128, h1, h2, h3]
  rw [if_neg hrowlen, if_neg hvallen, hrows_map, hvv_unpack, hzip]

/-- On success, a decoded block has exactly 128 entries (any streams). -/
theorem load128_length {s : PackedStreams} {b : Nat} {e : List (Nat × Nat)}
    (h : load128 s b = some e) : e.length = 128 := by
  unfold load128 at h
  split at h
  · split_ifs at h
    rw [Option.some_inj] at h
    subst h
    rw [List.length_zip, List.length_map, unpackFields_length, unpackFields_length]
    exact Nat.min_self 128
  · cases h

/-- On success, decoding `k` blocks yields exactly `128 * k` entries. -/
theorem loadBlocks_length {s : PackedStreams} : ∀ (k b : Nat) {L : List (Nat × Nat)},
    loadBlocks s b k = some L → L.length = 128 * k
  | 0, b, L, h => by
      have h0 : some ([] : List (Nat × Nat)) = some L := h
      rw [Option.some_inj] at h0
      subst h0
      rfl
  | k + 1, b, L, h => by
      simp only [loadBlocks] at h
      cases hE : load128 s b with
      | none =>
          rw [hE] at h
          cases h
      | some e =>
          rw [hE] at h
          cases hR : loadBlocks s (b + 1) k with
          | none =>
              rw [hR] at h
              cases h
          | some rest =>
              rw [hR] at h
              simp only [Option.bind_eq_bind, Option.some_bind, Option.pure_def,
                Option.some_inj] at h
              subst h
              rw [List.length_append, load128_length hE, loadBlocks_length k (b + 1) hR]
              ring

/-- Decoding any in-range run of `k` blocks of an encoded matrix yields the
corresponding padded blocks, concatenated. -/
theorem loadBlocks_encode (M : SparseMat) : ∀ (k b : Nat),
    b + k ≤ (allBlocks M).length →
    loadBlocks (encodePacked M) b k
      = some ((((allBlocks M).drop b).take k).map paddedBlock).flatten
  | 0, b, _ => by simp [loadBlocks]
  | k + 1, b, hbk => by
      have hb : b < (allBlocks M).length := by omega
      have hrest := loadBlocks_encode M k (b + 1) (by omega)
      simp only [loadBlocks, load128_encode M b hb, hrest, Option.bind_eq_bind,
        Option.some_bind, Option.pure_def, Option.some_inj]
      rw [List.drop_eq_getElem_cons hb, List.take_succ_cons, List.map_cons,
        List.flatten_cons, ← getD_eq_getElem [] hb]

theorem allBlocks_length_eq (M : SparseMat) :
    (allBlocks M).length = colPtrAt M M.length := by
  unfold allBlocks colPtrAt
  rw [List.take_length, List.length_flatten, List.map_map]
  rfl

theorem colPtrAt_mono (M : SparseMat) {c : Nat} (hc : c < M.length) :
    colPtrAt M c + (chunks128 (colData M c)).length = colPtrAt M (c + 1) := by
  unfold colPtrAt
  have htake : M.take (c + 1) = M.take c ++ [M[c]] := by
    rw [List.take_succ, List.getElem?_eq_getElem hc]
    rfl
  rw [htake, List.map_append, List.sum_append, List.map_singleton, List.sum_singleton]
  rw [colData, getD_eq_getElem [] hc]

theorem colPtrAt_le (M : SparseMat) (c : Nat) :
    colPtrAt M c ≤ (allBlocks M).length := by
  rw [allBlocks_length_eq]
  unfold colPtrAt
  rw [List.take_length, List.map_take]
  have hsplit := List.sum_take_add_sum_drop
    (M.map (fun col => (chunks128 col).length)) c
  omega

theorem colBlocks_extract (M : SparseMat) {c : Nat} (hc : c < M.length) :
    ((allBlocks M).drop (colPtrAt M c)).take ((chunks128 (colData M c)).length)
      = chunks128 (colData M c) := by
  have hcol : colData M c = M[c] := getD_eq_getElem [] hc
  have hcp : colPtrAt M c = (((M.map chunks128).take c).map List.length).sum := by
    unfold colPtrAt
    rw [← List.map_take, List.map_map]
    rfl
  have hcM : c < (M.map chunks128).length := by
    rw [List.length_map]
    exact hc
  unfold allBlocks
  rw [hcp, flatten_drop_sum, List.drop_eq_getElem_cons hcM, List.flatten_cons,
    List.getElem_map, hcol, List.take_left]

theorem paddedCol_length (col : List (Nat × Nat)) :
    (paddedCol col).length = 128 * (chunks128 col).length := by
  unfold paddedCol
  rw [List.length_flatten, List.map_map]
  have hrep : (chunks128 col).map (List.length ∘ paddedBlock)
      = List.replicate ((chunks128 col).length) 128 := by
    rw [List.eq_replicate_iff]
    refine ⟨by rw [List.length_map], ?_⟩
    intro x hx
    rcases List.mem_map.mp hx with ⟨ch, hch, rfl⟩
    exact paddedBlock_length (chunks128_mem_ne_nil hch).2
  rw [hrep, List.sum_replicate, smul_eq_mul, Nat.mul_comm]

theorem paddedCol_take (col : List (Nat × Nat)) :
    (paddedCol col).take col.length = col := by
  by_cases h : col = []
  · simp [h, paddedCol]
  · have hlen : col.length ≠ 0 := fun hl => h (List.eq_nil_of_length_eq_zero hl)
    unfold paddedCol
    rw [chunks128_cons h, List.map_cons, List.flatten_cons]
    rcases le_or_lt col.length 128 with hle | hlt
    · have hdrop : col.drop 128 = [] := List.drop_eq_nil_of_le hle
      have htake : col.take 128 = col := List.take_of_length_le hle
      rw [hdrop, chunks128_nil, List.map_nil, List.flatten_nil, List.append_nil,
        htake]
      unfold paddedBlock
      rw [List.take_left]
    · have h1 : (col.take 128).length = 128 := by
        rw [List.length_take]
        omega
      have hpb : paddedBlock (col.take 128) = col.take 128 := by
        unfold paddedBlock
        rw [h1, Nat.sub_self, List.replicate_zero, List.append_nil]
      have hfold : ((chunks128 (col.drop 128)).map paddedBlock).flatten
          = paddedCol (col.drop 128) := rfl
      have hterm : (col.drop 128).length < col.length := by
        rw [List.length_drop]
        omega
      have hrec := paddedCol_take (col.drop 128)
      rw [List.length_drop] at hrec
      rw [hpb, hfold, List.take_append_eq_append_take,
        List.take_of_length_le (by omega), h1, hrec, List.take_append_drop]
termination_by col.length

/-- Decoding the whole run of blocks of one column yields that column's
padded decoded form. -/
theorem loadBlocks_column (M : SparseMat) {c : Nat} (hc : c < M.length) :
    loadBlocks (encodePacked M) (colPtrAt M c) ((chunks128 (colData M c)).length)
      = some (paddedCol (colData M c)) := by
  have hband : colPtrAt M c + (chunks128 (colData M c)).length
      ≤ (allBlocks M).length := by
    rw [Nat.add_comm] at *
    rw [Nat.add_comm, colPtrAt_mono M hc]
    exact colPtrAt_le M (c + 1)
  rw [loadBlocks_encode M ((chunks128 (colData M c)).length) (colPtrAt M c)
    (by omega), colBlocks_extract M hc]
  rfl

theorem encode_row_count_get (M : SparseMat) {c : Nat} (hc : c < M.length) :
    (encodePacked M).row_count.get? c = some (colData M c).length := by
  rw [encode_row_count]
  exact get?_map_getD M List.length [] c hc

theorem encode_col_ptr_get (M : SparseMat) {c : Nat} (hc : c < M.length + 1) :
    (encodePacked M).col_ptr.get? c = some (colPtrAt M c) := by
  rw [encode_col_ptr]
  have hr : c < (List.range (M.length + 1)).length := by
    rw [List.length_range]
    exact hc
  have := get?_map_getD (List.range (M.length + 1)) (colPtrAt M) 0 c hr
  rw [this, getD_eq_getElem 0 hr, List.getElem_range]

/-- The single-call refinement of `load` on an encoded matrix: from any
state satisfying the reader invariant, `load` delivers exactly the next
`min count remaining` entries of the decoded column and re-establishes the
invariant. -/
theorem load_step (M : SparseMat) (c : Nat) (st : RState) (count : Nat)
    (h : Inv M c st) :
    ∃ buf2,
      load (encodePacked M) st count =
        (((min count ((colData M c).length - st.current_idx) : Nat) : Int),
         ((colData M c).drop st.current_idx).take
           (min count ((colData M c).length - st.current_idx)),
         ⟨some c,
          st.current_idx + min count ((colData M c).length - st.current_idx),
          buf2⟩) ∧
      Inv M c
        ⟨some c,
         st.current_idx + min count ((colData M c).length - st.current_idx),
         buf2⟩ := by
  obtain ⟨sc, si, sb⟩ := st
  obtain ⟨h1, hcM, hfr, hbuf⟩ := h
  simp only at h1 hfr hbuf
  subst h1
  have hrc : (encodePacked M).row_count.get? c = some (colData M c).length :=
    encode_row_count_get M hcM
  have hcp : (encodePacked M).col_ptr.get? c = some (colPtrAt M c) :=
    encode_col_ptr_get M (by omega)
  by_cases hex : (colData M c).length ≤ si
  · have hbl : sb.length = 0 := by omega
    have hbufnil : sb = [] := List.eq_nil_of_length_eq_zero hbl
    subst hbufnil
    have hmin0 : min count ((colData M c).length - si) = 0 := by omega
    refine ⟨[], ?_, ?_⟩
    · simp only [load, hrc, hcp, if_pos hex, hmin0]
      simp
    · rw [hmin0]
      exact ⟨rfl, hcM, by simpa using hfr, by simp⟩
  · by_cases hserve : min count ((colData M c).length - si) ≤ sb.length
    · refine ⟨sb.drop (min count ((colData M c).length - si)), ?_, ?_⟩
      · simp only [load, hrc, hcp, if_neg hex, if_pos hserve]
        refine congrArg₂ Prod.mk rfl (congrArg₂ Prod.mk ?_ rfl)
        rw [hbuf, List.take_take, min_eq_left hserve]
      · refine ⟨rfl, hcM, ?_, ?_⟩
        · simp only [List.length_drop]
          have he : si + min count ((colData M c).length - si)
              + (sb.length - min count ((colData M c).length - si))
              = si + sb.length := by omega
          rw [he]
          exact hfr
        · have hlen2 : (sb.drop (min count ((colData M c).length - si))).length
              = sb.length - min count ((colData M c).length - si) := by
            rw [List.length_drop]
          rw [hlen2]
          conv_lhs => rw [hbuf]
          rw [List.drop_take, List.drop_drop]
      -- decode branch
    · set col := colData M c with hcol
      set W := min count (col.length - si) with hW
      set dec := si + sb.length with hdec
      set kH := (dec + 127) / 128 with hkH
      set kN := (si + W + 127) / 128 with hkN
      set dec2 := min col.length (128 * kN) with hdec2
      set p0 := colPtrAt M c with hp0
      have hnb : (chunks128 col).length = (col.length + 127) / 128 :=
        chunks128_length _
      have hdec_lt : dec < col.length := by omega
      have hdec_block : dec = 128 * kH := by omega
      have hkh_lt : kH < kN := by omega
      have hkn_le : kN ≤ (chunks128 col).length := by omega
      have hband : p0 + (chunks128 col).length ≤ (allBlocks M).length := by
        have hm := colPtrAt_mono M hcM
        have hl := colPtrAt_le M (c + 1)
        have hb1 : (chunks128 col).length = (chunks128 (colData M c)).length := rfl
        omega
      have hseg : ((allBlocks M).drop (p0 + kH)).take (kN - kH)
          = ((chunks128 col).drop kH).take (kN - kH) := by
        conv_rhs => rw [← colBlocks_extract M hcM, ← hcol, ← hp0]
        rw [List.drop_take, List.take_take, ← List.drop_drop,
          min_eq_left (by omega)]
      have hall128 : ∀ x ∈ (chunks128 col).map paddedBlock, x.length = 128 := by
        intro x hx
        rcases List.mem_map.mp hx with ⟨ch, hch, rfl⟩
        exact paddedBlock_length (chunks128_mem_ne_nil hch).2
      have hLblocks : loadBlocks (encodePacked M) (p0 + kH) (kN - kH)
          = some (((paddedCol col).drop dec).take (128 * (kN - kH))) := by
        rw [loadBlocks_encode M (kN - kH) (p0 + kH) (by omega), hseg,
          List.map_take, List.map_drop]
        rw [flatten_take_const (((chunks128 col).map paddedBlock).drop kH)
          (fun x hx => hall128 x (List.mem_of_mem_drop hx)) (kN - kH)]
        rw [flatten_drop_const ((chunks128 col).map paddedBlock) hall128 kH]
        rw [show ((chunks128 col).map paddedBlock).flatten = paddedCol col from rfl]
        rw [← hdec_block]
      have hnewtake : (((paddedCol col).drop dec).take (128 * (kN - kH))).take
            (dec2 - dec)
          = (col.drop dec).take (dec2 - dec) := by
        rw [List.take_take, min_eq_left (by omega)]
        conv_rhs => rw [← paddedCol_take col]
        rw [List.drop_take, List.take_take, min_eq_left (by omega)]
      have havail : sb ++ (col.drop dec).take (dec2 - dec)
          = (col.drop si).take (dec2 - si) := by
        have he : dec2 - si = sb.length + (dec2 - dec) := by omega
        rw [he, List.take_add, List.drop_drop, ← hdec, ← hbuf]
      have hdeliver : ((col.drop si).take (dec2 - si)).take W
          = (col.drop si).take W := by
        rw [List.take_take, min_eq_left (by omega)]
      have hbuf2 : ((col.drop si).take (dec2 - si)).drop W
          = (col.drop (si + W)).take (dec2 - (si + W)) := by
        rw [List.drop_take, List.drop_drop]
        congr 1
        omega
      have hbuf2len : ((col.drop (si + W)).take (dec2 - (si + W))).length
          = dec2 - (si + W) := by
        rw [List.length_take, List.length_drop]
        omega
      refine ⟨(col.drop (si + W)).take (dec2 - (si + W)), ?_, ?_⟩
      · simp only [load, hrc, hcp, if_neg hex]
        rw [← hW]
        rw [if_neg hserve]
        rw [← hdec, ← hkH, ← hkN, hLblocks]
        simp only [← hdec2]
        rw [hnewtake, havail, hdeliver, hbuf2]
      · refine ⟨rfl, hcM, ?_, ?_⟩
        · dsimp only
          rw [hbuf2len]
          have hlencc : (colData M c).length = col.length := rfl
          omega
        · dsimp only
          rw [hbuf2len]


/-- Driving `load` to exhaustion with any fixed positive request size
delivers exactly the remaining entries of the decoded column. -/
theorem loadLoop_encode (M : SparseMat) (c q : Nat) (hq : 0 < q) :
    ∀ (fuel : Nat) (st : RState), Inv M c st →
      (colData M c).length - st.current_idx < fuel →
      ∃ st2, loadLoop (encodePacked M) q fuel st
          = some ((colData M c).drop st.current_idx, st2)
        ∧ Inv M c st2 ∧ (colData M c).length ≤ st2.current_idx
  | 0, st, _, hf => absurd hf (by omega)
  | fuel + 1, st, hInv, hf => by
      obtain ⟨buf2, hload, hInv2⟩ := load_step M c st q hInv
      by_cases hex : (colData M c).length ≤ st.current_idx
      · have hm0 : min q ((colData M c).length - st.current_idx) = 0 := by omega
        rw [hm0] at hload hInv2
        have hdropnil : (colData M c).drop st.current_idx = [] :=
          List.drop_eq_nil_of_le hex
        refine ⟨⟨some c, st.current_idx + 0, buf2⟩, ?_, hInv2, by simpa using hex⟩
        simp only [loadLoop, hload, hdropnil]
        norm_num
      · have hmpos : 0 < min q ((colData M c).length - st.current_idx) := by omega
        have hInv2' := hInv2
        obtain ⟨st2, hrec, hInv3, hend⟩ := loadLoop_encode M c q hq fuel
          ⟨some c, st.current_idx + min q ((colData M c).length - st.current_idx),
            buf2⟩ hInv2 (by simp only; omega)
        refine ⟨st2, ?_, hInv3, hend⟩
        simp only [loadLoop, hload]
        rw [if_neg (by omega), if_neg (by omega)]
        simp only at hrec
        rw [hrec]
        simp only [Option.bind_eq_bind, Option.some_bind, Option.pure_def,
          Option.some_inj]
        refine congrArg₂ Prod.mk ?_ rfl
        rw [← List.drop_drop, List.take_append_drop]

/-- A traversal by `nextCol`/`loadColumn` from a state about to enter column
`c` yields exactly the remaining columns of the source matrix. -/
theorem traverseFrom_encode (M : SparseMat) :
    ∀ (fuel c : Nat) (st : RState),
      (match st.current_col with | none => 0 | some x => x + 1) = c →
      c ≤ M.length → M.length - c < fuel →
      traverseFrom (encodePacked M) fuel st = some (M.drop c)
  | 0, c, st, hc, hcle, hf => absurd hf (by omega)
  | fuel + 1, c, st, hc, hcle, hf => by
      have hrclen : (encodePacked M).row_count.length = M.length := by
        rw [encode_row_count, List.length_map]
      by_cases hlt : c < M.length
      · have hnc : nextCol (encodePacked M) st = (true, ⟨some c, 0, []⟩) := by
          unfold nextCol
          rw [hc, hrclen, if_pos hlt]
        have hInv0 : Inv M c ⟨some c, 0, []⟩ := by
          refine ⟨rfl, hlt, by simp only [List.length_nil]; omega, by simp⟩
        have htot_le : (colData M c).length ≤ (encodePacked M).row_count.sum := by
          apply List.single_le_sum (fun x _ => Nat.zero_le x)
          rw [encode_row_count]
          exact List.mem_map.mpr ⟨colData M c, getD_mem_of_lt [] hlt, rfl⟩
        obtain ⟨st2, hloadcol, hInv2, hend⟩ := loadLoop_encode M c 128
          (by norm_num) ((encodePacked M).row_count.sum + 1) ⟨some c, 0, []⟩
          hInv0 (by simp only; omega)
        have hcol2 : st2.current_col = some c := hInv2.1
        have hrest := traverseFrom_encode M fuel (c + 1) st2
          (by rw [hcol2]) (by omega) (by omega)
        simp only [traverseFrom, hnc, loadColumn, hloadcol, hrest,
          Option.bind_eq_bind, Option.some_bind, Option.pure_def,
          Option.some_inj, List.drop_zero]
        rw [List.drop_eq_getElem_cons hlt, ← getD_eq_getElem [] hlt]
        rfl
      · have hnc : nextCol (encodePacked M) st
            = (false, { st with current_col := some c }) := by
          unfold nextCol
          rw [hc, hrclen, if_neg hlt]
        simp only [traverseFrom, hnc]
        rw [List.drop_of_length_le (by omega)]

/-- A full traversal of a freshly constructed reader over an encoded matrix
yields exactly the source columns in order. -/
theorem traverse_encode (M : SparseMat) : traverse (encodePacked M) = some M := by
  unfold traverse
  have hrclen : (encodePacked M).row_count.length = M.length := by
    rw [encode_row_count, List.length_map]
  rw [hrclen]
  have := traverseFrom_encode M (M.length + 1) 0 initState rfl (by omega) (by omega)
  rw [this, List.drop_zero]

/-! ## Claim C8: per-block bit-width minimality -/

/-- C8: for every block emitted by the writer's pack step, the stored row
bit width is the smallest `w` with every `row − baseline < 2 ^ w` and the
stored value bit width is the smallest `w` with every `value < 2 ^ w`
(value baseline 0); a block whose entries all share one row index (so the
frame-of-reference baseline equals that index and every delta is 0) is
stored with width 0. -/
theorem block_width_minimal (M : SparseMat) (b : Nat)
    (hb : b < (allBlocks M).length) :
    ∃ w base wv,
      (encodePacked M).row_idx.get? b = some w ∧
      (encodePacked M).row_starts.get? b = some base ∧
      (encodePacked M).val_idx.get? b = some wv ∧
      (∀ r ∈ blockRows ((allBlocks M).getD b []), r - base < 2 ^ w) ∧
      (∀ w2, (∀ r ∈ blockRows ((allBlocks M).getD b []), r - base < 2 ^ w2) →
        w ≤ w2) ∧
      (∀ v ∈ blockVals ((allBlocks M).getD b []), v < 2 ^ wv) ∧
      (∀ w2, (∀ v ∈ blockVals ((allBlocks M).getD b []), v < 2 ^ w2) →
        wv ≤ w2) ∧
      ((∀ x ∈ blockRows ((allBlocks M).getD b []),
          ∀ y ∈ blockRows ((allBlocks M).getD b []), x = y) → w = 0) := by
  refine ⟨blockRowWidth ((allBlocks M).getD b []),
    blockBase ((allBlocks M).getD b []),
    blockValWidth ((allBlocks M).getD b []),
    get?_map_getD _ _ [] b hb, get?_map_getD _ _ [] b hb, get?_map_getD _ _ [] b hb,
    ?_, ?_, ?_, ?_, ?_⟩
  · intro r hr
    exact lt_two_pow_widthFor (List.mem_map.mpr ⟨r, hr, rfl⟩)
  · intro w2 h
    apply widthFor_min
    intro x hx
    rcases List.mem_map.mp hx with ⟨r, hr, rfl⟩
    exact h r hr
  · intro v hv
    exact lt_two_pow_widthFor hv
  · intro w2 h
    exact widthFor_min h
  · intro hall
    have hne := (allBlocks_block_bounds (getD_mem_of_lt [] hb)).1
    have hrows_ne : blockRows ((allBlocks M).getD b []) ≠ [] := by
      unfold blockRows
      intro hmap
      exact hne (List.map_eq_nil.mp hmap)
    have hbase := listMin_mem _ hrows_ne
    apply Nat.le_zero.mp
    apply widthFor_min
    intro x hx
    rcases List.mem_map.mp hx with ⟨r, hr, rfl⟩
    have hrb : r = blockBase ((allBlocks M).getD b []) := hall r hr _ hbase
    rw [hrb]
    simp

/-- Witness for C8: block 0 of the encoded 3×2 spec scenario, whose rows are
{0, 2} (baseline 0, width 2) and values {5, 9} (width 4). -/
theorem block_width_minimal_witness :
    ∃ w base wv,
      (encodePacked [[(0, 5), (2, 9)], [(1, 7)]]).row_idx.get? 0 = some w ∧
      (encodePacked [[(0, 5), (2, 9)], [(1, 7)]]).row_starts.get? 0 = some base ∧
      (encodePacked [[(0, 5), (2, 9)], [(1, 7)]]).val_idx.get? 0 = some wv ∧
      (∀ r ∈ blockRows ((allBlocks [[(0, 5), (2, 9)], [(1, 7)]]).getD 0 []),
        r - base < 2 ^ w) ∧
      (∀ w2, (∀ r ∈ blockRows ((allBlocks [[(0, 5), (2, 9)], [(1, 7)]]).getD 0 []),
          r - base < 2 ^ w2) → w ≤ w2) ∧
      (∀ v ∈ blockVals ((allBlocks [[(0, 5), (2, 9)], [(1, 7)]]).getD 0 []),
        v < 2 ^ wv) ∧
      (∀ w2, (∀ v ∈ blockVals ((allBlocks [[(0, 5), (2, 9)], [(1, 7)]]).getD 0 []),
          v < 2 ^ w2) → wv ≤ w2) ∧
      ((∀ x ∈ blockRows ((allBlocks [[(0, 5), (2, 9)], [(1, 7)]]).getD 0 []),
          ∀ y ∈ blockRows ((allBlocks [[(0, 5), (2, 9)], [(1, 7)]]).getD 0 []),
          x = y) → w = 0) :=
  block_width_minimal [[(0, 5), (2, 9)], [(1, 7)]] 0 (by decide)

/-! ## Claim C1: encode/decode round trip -/

/-- C1: for every sparse matrix `M`, writing with the packed writer and
reading the result back with a fresh reader (restart position, `nextCol`
then `load` to exhaustion per column) yields, for every column, the same
multiset of (row, value) pairs as `M` — here in fact the very same list,
which implies multiset equality. -/
theorem packed_roundtrip (M : SparseMat) :
    ∃ L, traverse (encodePacked M) = some L ∧ L.length = M.length ∧
      ∀ c, Multiset.ofList (L.getD c []) = Multiset.ofList (M.getD c []) :=
  ⟨M, traverse_encode M, rfl, fun _ => rfl⟩

/-! ## Claim C5: restart idempotence -/

/-- C5: `restart` from any reader state (in particular the state left by a
first full traversal) puts the reader back in the freshly-constructed
position, so a full traversal after `restart` produces the identical
sequence of columns and entries as the first full traversal; over an
encoded matrix both produce exactly the source columns. -/
theorem restart_traversal (M : SparseMat) (st : RState) :
    traverseFrom (encodePacked M) ((encodePacked M).row_count.length + 1)
        (restart st)
      = traverse (encodePacked M) ∧
    traverseFrom (encodePacked M) ((encodePacked M).row_count.length + 1)
        (restart st)
      = some M := by
  constructor
  · rfl
  · show traverse (encodePacked M) = some M
    exact traverse_encode M

/-! ## Claim C4: partial-load equivalence -/

/-- C4: on a fresh traversal of column `c` of an encoded matrix, issuing
`load 1` repeatedly until the column is exhausted delivers the same total
number of entries and the same (row, value) contents as one single
`load (row_count[c])` call: both deliver exactly the column. -/
theorem partial_load_equiv (M : SparseMat) (c : Nat) (hc : c < M.length) :
    (encodePacked M).row_count.get? c = some (colData M c).length ∧
    (∃ st2, loadLoop (encodePacked M) 1 ((colData M c).length + 1) ⟨some c, 0, []⟩
        = some (colData M c, st2)) ∧
    (load (encodePacked M) ⟨some c, 0, []⟩ (colData M c).length).1
        = ((colData M c).length : Int) ∧
    (load (encodePacked M) ⟨some c, 0, []⟩ (colData M c).length).2.1
        = colData M c := by
  have hInv0 : Inv M c ⟨some c, 0, []⟩ := by
    refine ⟨rfl, hc, by simp only [List.length_nil]; omega, by simp⟩
  obtain ⟨st2, hloop, _, _⟩ := loadLoop_encode M c 1 (by norm_num)
    ((colData M c).length + 1) ⟨some c, 0, []⟩ hInv0 (by simp only; omega)
  obtain ⟨buf2, hload, _⟩ := load_step M c ⟨some c, 0, []⟩ (colData M c).length hInv0
  simp only [List.drop_zero] at hloop
  refine ⟨encode_row_count_get M hc, ⟨st2, hloop⟩, ?_, ?_⟩
  · rw [hload]
    simp
  · rw [hload]
    simp

/-- Witness for C4 at the 3×2 spec scenario, column 0. -/
theorem partial_load_equiv_witness :
    (encodePacked [[(0, 5), (2, 9)], [(1, 7)]]).row_count.get? 0
        = some (colData [[(0, 5), (2, 9)], [(1, 7)]] 0).length ∧
    (∃ st2, loadLoop (encodePacked [[(0, 5), (2, 9)], [(1, 7)]]) 1
          ((colData [[(0, 5), (2, 9)], [(1, 7)]] 0).length + 1) ⟨some 0, 0, []⟩
        = some (colData [[(0, 5), (2, 9)], [(1, 7)]] 0, st2)) ∧
    (load (encodePacked [[(0, 5), (2, 9)], [(1, 7)]]) ⟨some 0, 0, []⟩
        (colData [[(0, 5), (2, 9)], [(1, 7)]] 0).length).1
      = ((colData [[(0, 5), (2, 9)], [(1, 7)]] 0).length : Int) ∧
    (load (encodePacked [[(0, 5), (2, 9)], [(1, 7)]]) ⟨some 0, 0, []⟩
        (colData [[(0, 5), (2, 9)], [(1, 7)]] 0).length).2.1
      = colData [[(0, 5), (2, 9)], [(1, 7)]] 0 :=
  partial_load_equiv [[(0, 5), (2, 9)], [(1, 7)]] 0 (by decide)

/-! ## Claim C3: decode errors surface as the −1 sentinel -/

/-- C3: from any reader state whose consumed/buffered frontier satisfies the
bookkeeping invariant (which holds in every reachable state, over arbitrary
— possibly corrupt — streams), `load` either returns the `-1` sentinel and
no entries (streams too short or inconsistent with the declared block
metadata), or reports and delivers exactly `min count remaining` entries —
never a silently truncated or garbled result.  `nextCol` and `restart`
return no error channel at all, so decode errors surface from `load` and
nowhere else. -/
theorem load_error_sentinel (s : PackedStreams) (st : RState)
    (c total p0 count : Nat)
    (h1 : st.current_col = some c) (h2 : s.row_count.get? c = some total)
    (h3 : s.col_ptr.get? c = some p0) (h4 : st.current_idx ≤ total)
    (h5 : st.current_idx + st.buf.length
        = min total (128 * ((st.current_idx + st.buf.length + 127) / 128))) :
    ((load s st count).1 = -1 ∧ (load s st count).2.1 = []) ∨
    ((load s st count).1 = ((min count (total - st.current_idx) : Nat) : Int) ∧
      (load s st count).2.1.length = min count (total - st.current_idx)) := by
  obtain ⟨sc, si, sb⟩ := st
  simp only at h1 h4 h5
  subst h1
  by_cases hex : total ≤ si
  · right
    have hm0 : min count (total - si) = 0 := by omega
    simp only [load, h2, h3, if_pos hex, hm0]
    simp
  · by_cases hserve : min count (total - si) ≤ sb.length
    · right
      simp only [load, h2, h3, if_neg hex, if_pos hserve]
      refine ⟨by simp, ?_⟩
      simp only [List.length_take]
      omega
    · simp only [load, h2, h3, if_neg hex, if_neg hserve]
      cases hLB : loadBlocks s (p0 + (si + sb.length + 127) / 128)
          ((si + min count (total - si) + 127) / 128
            - (si + sb.length + 127) / 128) with
      | none =>
          left
          exact ⟨rfl, rfl⟩
      | some newE =>
          right
          have hlenE := loadBlocks_length _ _ hLB
          refine ⟨rfl, ?_⟩
          simp only [List.length_take, List.length_append]
          omega

/-- Witness for C3: corrupt streams (a declared 5-entry column with empty
metadata and payload streams) make `load` return the −1 sentinel; the
invariant hypotheses hold at the fresh-column state. -/
theorem load_error_sentinel_witness :
    (load { val_data := [], val_idx := [], row_data := [], row_starts := [],
            row_idx := [], col_ptr := [0, 1], row_count := [5] }
        ⟨some 0, 0, []⟩ 3).1 = -1 ∨
    ((load { val_data := [], val_idx := [], row_data := [], row_starts := [],
             row_idx := [], col_ptr := [0, 1], row_count := [5] }
        ⟨some 0, 0, []⟩ 3).1 = ((min 3 (5 - 0) : Nat) : Int) ∧
      (load { val_data := [], val_idx := [], row_data := [], row_starts := [],
              row_idx := [], col_ptr := [0, 1], row_count := [5] }
          ⟨some 0, 0, []⟩ 3).2.1.length = min 3 (5 - 0)) :=
  Or.imp (fun h => h.1) id
    (load_error_sentinel
      { val_data := [], val_idx := [], row_data := [], row_starts := [],
        row_idx := [], col_ptr := [0, 1], row_count := [5] }
      ⟨some 0, 0, []⟩ 0 5 0 3 rfl (by decide) (by decide) (by decide) (by decide))

/-! ## Claim C2: end-of-column signalling -/

/-- C2: once the current column's entries have all been consumed, every
further `load` call returns 0 (not an error) and delivers nothing, leaving
the reader state unchanged — so an arbitrary sequence of further `load`
calls keeps returning 0 until `nextCol` is called again. -/
theorem load_after_exhaustion (s : PackedStreams) (st : RState) (c total p0 : Nat)
    (h1 : st.current_col = some c) (h2 : s.row_count.get? c = some total)
    (h3 : s.col_ptr.get? c = some p0) (h4 : total ≤ st.current_idx)
    (counts : List Nat) :
    loadRepeat s st counts =
      (counts.map (fun _ => ((0 : Int), ([] : List (Nat × Nat)))), st) := by
  have hstep : ∀ n, load s st n = (0, [], st) := by
    intro n
    simp only [load, h1, h2, h3, if_pos h4]
  induction counts with
  | nil => rfl
  | cons n ns ih =>
      simp only [loadRepeat, hstep n, ih, List.map_cons]

/-- Witness for C2 at a concrete encoded matrix: the 3×2 spec scenario, with
column 0 (two entries) fully consumed; three further loads of sizes 1, 128
and 7 all return 0. -/
theorem load_after_exhaustion_witness :
    loadRepeat (encodePacked [[(0, 5), (2, 9)], [(1, 7)]])
        ⟨some 0, 2, []⟩ [1, 128, 7] =
      ([(0, []), (0, []), (0, [])], ⟨some 0, 2, []⟩) :=
  load_after_exhaustion (encodePacked [[(0, 5), (2, 9)], [(1, 7)]])
    ⟨some 0, 2, []⟩ 0 2 0 rfl (by decide) (by decide) (by decide) [1, 128, 7]

/-! ## Claim C7: cancellation of a write -/

/-- C7: `write` fails (returns `none`, the C++ `false`) whenever the
interrupt-check signals cancellation at any polled column of the source
traversal — in particular after the first column — and succeeds exactly
when no polled check signals cancellation, i.e. it claims success only for
a traversal encoded to completion. -/
theorem write_cancellation (M : SparseMat) (checkInterrupt : Nat → Bool) :
    ((∃ i, i < M.length ∧ checkInterrupt i = true) → write M checkInterrupt = none) ∧
    ((write M checkInterrupt).isSome = true ↔
      ∀ i, i < M.length → checkInterrupt i = false) := by
  have hp := pollCols_iff checkInterrupt 0 M.length
  simp only [Nat.zero_add] at hp
  constructor
  · rintro ⟨i, hi, hsig⟩
    unfold write
    have : pollCols checkInterrupt 0 M.length ≠ true := by
      intro hpoll
      have := hp.mp hpoll i hi
      rw [hsig] at this
      cases this
    rw [if_neg this]
  · unfold write
    by_cases hpoll : pollCols checkInterrupt 0 M.length
    · simp only [if_pos hpoll, Option.isSome_some]
      exact ⟨fun _ => hp.mp hpoll, fun _ => trivial⟩
    · simp only [if_neg hpoll, Option.isSome_none]
      constructor
      · intro h
        cases h
      · intro h
        exact absurd (hp.mpr h) hpoll

/-- Witness for C7: cancelling after the first column of the 3×2 scenario
makes `write` fail. -/
theorem write_cancellation_witness :
    write [[(0, 5), (2, 9)], [(1, 7)]] (fun i => i == 1) = none :=
  (write_cancellation [[(0, 5), (2, 9)], [(1, 7)]] (fun i => i == 1)).1
    ⟨1, by decide, by decide⟩

/-! ## Claims C6, C9, C10: `RenameDims` -/

/-- C6: `RenameDims` construction succeeds exactly when none of the four
configuration errors holds: a non-empty `row_names` whose length differs
from the wrapped loader's rows, a non-empty `col_names` whose length
differs from its cols, or a clear flag set while the corresponding names
vector is non-empty; in each offending case the constructor throws and no
object is produced. -/
theorem renameDims_construction (lr lc : Nat)
    (lrn lcn : Nat → Option String) (rn cn : List String) (crn ccn : Bool) :
    (∃ r, mkRenameDims lr lc lrn lcn rn cn crn ccn = Except.ok r) ↔
      ¬(0 < rn.length ∧ rn.length ≠ lr) ∧
      ¬(0 < cn.length ∧ cn.length ≠ lc) ∧
      ¬(crn = true ∧ rn.length ≠ 0) ∧
      ¬(ccn = true ∧ cn.length ≠ 0) := by
  constructor
  · rintro ⟨r, hr⟩
    unfold mkRenameDims at hr
    split_ifs at hr with hc1 hc2 hc3 hc4
    exact ⟨hc1, hc2, hc3, hc4⟩
  · rintro ⟨h1, h2, h3, h4⟩
    unfold mkRenameDims
    rw [if_neg h1, if_neg h2, if_neg h3, if_neg h4]
    exact ⟨_, rfl⟩

/-- Witness for C6: a length-2 row-name vector against a 3-row loader is
rejected, i.e. the success condition is false, matched concretely. -/
theorem renameDims_construction_witness :
    ¬(∃ r, mkRenameDims 3 2 (fun _ => none) (fun _ => none)
        ["a", "b"] [] false false = Except.ok r) := by
  rw [renameDims_construction 3 2 (fun _ => none) (fun _ => none)
    ["a", "b"] [] false false]
  decide

/-- C9: with `clear_col_names` (resp. `clear_row_names`) set, `colNames`
(resp. `rowNames`) returns NULL at every index; the result is forced before
the wrapped loader's names are ever consulted (the statement holds for
every wrapped loader `r.loaderColNames` / `r.loaderRowNames`). -/
theorem renameDims_clear_names (r : RenameDims) (i j : Nat) :
    (r.clear_col_names = true → r.colNames i = none) ∧
    (r.clear_row_names = true → r.rowNames j = none) := by
  constructor
  · intro h
    unfold RenameDims.colNames
    rw [if_pos h]
  · intro h
    unfold RenameDims.rowNames
    rw [if_pos h]

/-- Witness for C9: a wrapper with both clear flags set and a loader that
does carry names still reports NULL names. -/
theorem renameDims_clear_names_witness :
    RenameDims.colNames
        { loaderRows := 1, loaderCols := 1,
          loaderRowNames := fun _ => some "x", loaderColNames := fun _ => some "y",
          row_names := [], col_names := [],
          clear_row_names := true, clear_col_names := true } 0 = none ∧
    RenameDims.rowNames
        { loaderRows := 1, loaderCols := 1,
          loaderRowNames := fun _ => some "x", loaderColNames := fun _ => some "y",
          row_names := [], col_names := [],
          clear_row_names := true, clear_col_names := true } 5 = none :=
  ⟨(renameDims_clear_names _ 0 5).1 rfl, (renameDims_clear_names _ 0 5).2 rfl⟩

/-- C10: with a non-empty `col_names` (resp. `row_names`) vector, an index
at or past the vector's length yields NULL — the embedded translation only
indexes the vector under the explicit bounds check (`List.get` with the
in-bounds proof), so no out-of-bounds access exists. -/
theorem renameDims_out_of_bounds (r : RenameDims) (i j : Nat) :
    (0 < r.col_names.length → r.col_names.length ≤ i → r.colNames i = none) ∧
    (0 < r.row_names.length → r.row_names.length ≤ j → r.rowNames j = none) := by
  constructor
  · intro h0 hi
    unfold RenameDims.colNames
    by_cases hc : r.clear_col_names
    · rw [if_pos hc]
    · rw [if_neg hc, if_neg (by omega), dif_neg (by omega)]
  · intro h0 hj
    unfold RenameDims.rowNames
    by_cases hc : r.clear_row_names
    · rw [if_pos hc]
    · rw [if_neg hc, if_neg (by omega), dif_neg (by omega)]

/-- Witness for C10: a two-name vector queried at indices 2 and 17 yields
NULL for both columns and rows. -/
theorem renameDims_out_of_bounds_witness :
    RenameDims.colNames
        { loaderRows := 2, loaderCols := 2,
          loaderRowNames := fun _ => some "x", loaderColNames := fun _ => some "y",
          row_names := ["r1", "r2"], col_names := ["c1", "c2"],
          clear_row_names := false, clear_col_names := false } 2 = none ∧
    RenameDims.rowNames
        { loaderRows := 2, loaderCols := 2,
          loaderRowNames := fun _ => some "x", loaderColNames := fun _ => some "y",
          row_names := ["r1", "r2"], col_names := ["c1", "c2"],
          clear_row_names := false, clear_col_names := false } 17 = none :=
  ⟨(renameDims_out_of_bounds _ 2 17).1 (by decide) (by decide),
   (renameDims_out_of_bounds _ 2 17).2 (by decide) (by decide)⟩

end BPCells
